import Mathlib

/-!
Verification of the myhdl core (this fork) against its specification.

The development shallowly embeds the parts of the source that the claims
touch:

* `intbv` (src/myhdl/_intbv.py): the bounded bit-vector class, its
  `_handleBounds` check, the `__setitem__` bit/slice assignments, the
  in-place operators, the binary operators, and `signed()`.
* `_Signal._update` (src/myhdl/_Signal.py): waiter collection on a value
  change, and the `_DelayedSignal` `_update`/`_apply` pair.
* `_AnnotateTypesVisitor` (src/myhdl/conversion/_annotate.py): the
  `signed` attribute computation.
* `_Block._verifySubs` (src/myhdl/_block.py): the return-value check.
* `fixbv.__init__` (src/myhdl/_fixbv.py): the real-bound computation for
  the `(l, '*', r)` tuple form.

Python unbounded integers are embedded as `Int`.  Python `x >> k` and
`x << k` on ints are arithmetic shifts, i.e. floor division and
multiplication by `2 ^ k`; for positive divisors floor division and
floor modulus coincide with Lean's `/` and `%` on `Int` (Euclidean for
positive divisors).  Python `&`, `|`, `^`, `~` on ints are the two's
complement bitwise operations `Int.land`, `Int.lor`, `Int.xor`,
`Int.lnot`.  Exceptions are embedded as an error value.
-/

/-- Kinds of Python exception raised by the embedded code paths. -/
inductive PyErr where
  | valueError
  | typeError
  | zeroDivisionError
deriving DecidableEq

/-- Number of binary digits of a natural number (`0` has none), computed
with explicit fuel so that it reduces definitionally. -/
def natBitLenAux : Nat → Nat → Nat
  | 0, _ => 0
  | fuel + 1, n => if n = 0 then 0 else natBitLenAux fuel (n / 2) + 1

/-- Number of binary digits of a natural number; `natBitLen 0 = 0`. -/
def natBitLen (n : Nat) : Nat :=
  natBitLenAux n n

/-- Embedding of the length of the string returned by the missing helper
`myhdl._bin.bin` (`myhdl/_bin.py` is not part of the sources).
Modelled from the spec: the width of a bit-vector is derived from the
minimal binary representation, `ceil(log2(max-1))+1` style for
non-negative numbers (with `0` taking one digit) and the minimal two's
complement length for negative numbers. -/
def binLen (x : Int) : Nat :=
  if 0 ≤ x then
    if x = 0 then 1 else natBitLen x.toNat
  else
    natBitLen (-x - 1).toNat + 1

/-- Embedding of class `intbv` (src/myhdl/_intbv.py): integer value,
optional bounds and a declared width.  `min?`/`max?` embed the `_min` and
`_max` attributes (`None` as `none`). -/
structure intbv where
  val : Int
  min? : Option Int
  max? : Option Int
  nrbits : Nat
deriving DecidableEq

/-- Embedding of `intbv._handleBounds`: check `val >= max` first, then
`val < min`; each failure raises `ValueError`.  Returns the raised
exception, if any. -/
def handleBounds (v : intbv) : Option PyErr :=
  match v.max? with
  | some M =>
    if M ≤ v.val then some .valueError
    else
      match v.min? with
      | some m => if v.val < m then some .valueError else none
      | none => none
  | none =>
    match v.min? with
    | some m => if v.val < m then some .valueError else none
    | none => none

/-- Embedding of the `intbv.__init__` path for an `int` value: derive
`_nrbits` from the bounds when both are given (`len(bin(max-1))` for
`min >= 0`, `len(bin(min))` for `max <= 1`, otherwise the maximum of the
two with a leading zero bit for positive numbers), then run
`_handleBounds`. -/
def intbvNew (val : Int) (min? max? : Option Int) : Except PyErr intbv :=
  let nrbits : Nat :=
    match min?, max? with
    | some m, some M =>
      if 0 ≤ m then binLen (M - 1)
      else if M ≤ 1 then binLen m
      else Nat.max (binLen (M - 1) + 1) (binLen m)
    | _, _ => 0
  let v : intbv := ⟨val, min?, max?, nrbits⟩
  match handleBounds v with
  | some e => .error e
  | none => .ok v

/-- Value of a big-endian list of binary digits, embedding `int(mval, 2)`
in the `intbv.__init__` string path. -/
def bitsVal (bs : List Bool) : Int :=
  bs.foldl (fun acc b => 2 * acc + (if b then 1 else 0)) 0

/-- Embedding of the `intbv.__init__` path for a binary-string value with
no bounds given: `_val = int(mval, 2)`, `_nrbits = len(mval)`, `_min` and
`_max` stay `None` (so `_handleBounds` passes). -/
def intbvOfBits (bs : List Bool) : intbv :=
  ⟨bitsVal bs, none, none, bs.length⟩

/-- Mutate the value of an `intbv` and run `_handleBounds`, the common
tail of every mutating method of the class.  The returned state is the
object as left behind even when the check raises: `_handleBounds` does
not roll the assignment back. -/
def setVal (v : intbv) (newVal : Int) : intbv × Option PyErr :=
  let w : intbv := { v with val := newVal }
  (w, handleBounds w)

/-- The mutating operations of `intbv`: `__setitem__` on a single bit, on
a bounded slice `v[i:j]`, on an open slice `v[:j]`, and the in-place
arithmetic and bitwise operators.  The `Int` payloads embed the Python
`int` arguments (an `intbv` argument contributes its `_val`). -/
inductive Mutation where
  | setBit (i : Int) (b : Int)
  | setSlice (i j : Int) (x : Int)
  | setSliceOpen (j : Int) (x : Int)
  | iadd (x : Int)
  | isub (x : Int)
  | imul (x : Int)
  | ifloordiv (x : Int)
  | imod (x : Int)
  | ipow (x : Int)
  | iand (x : Int)
  | ior (x : Int)
  | ixor (x : Int)
  | ilshift (x : Int)
  | irshift (x : Int)
deriving DecidableEq

/-- Embedding of the mutating methods of `intbv`
(src/myhdl/_intbv.py): `__setitem__` and `__iadd__` .. `__irshift__`.
Each returns the state of the object after the call together with the
exception raised, if any.  Argument checks (`j >= 0`, `i > j`, the slice
magnitude limit, bit values in `(0, 1)`, negative shift counts and
exponents, division by zero) raise before the value is touched; the
value update itself is followed by `_handleBounds`. -/
def applyMutation (v : intbv) (m : Mutation) : intbv × Option PyErr :=
  match m with
  | .setBit i b =>
    if b = 1 then
      if i < 0 then (v, some .valueError)
      else setVal v (Int.lor v.val (2 ^ i.toNat))
    else if b = 0 then
      if i < 0 then (v, some .valueError)
      else setVal v (Int.land v.val (Int.lnot (2 ^ i.toNat)))
    else (v, some .valueError)
  | .setSlice i j x =>
    if j < 0 then (v, some .valueError)
    else if i ≤ j then (v, some .valueError)
    else
      let lim : Int := 2 ^ (i - j).toNat
      if lim ≤ x ∨ x < -lim then (v, some .valueError)
      else
        let mask : Int := (lim - 1) * 2 ^ j.toNat
        setVal v (Int.lor (Int.land v.val (Int.lnot mask)) (x * 2 ^ j.toNat))
  | .setSliceOpen j x =>
    if j < 0 then (v, some .valueError)
    else setVal v (x * 2 ^ j.toNat + v.val % 2 ^ j.toNat)
  | .iadd x => setVal v (v.val + x)
  | .isub x => setVal v (v.val - x)
  | .imul x => setVal v (v.val * x)
  | .ifloordiv x =>
    if x = 0 then (v, some .zeroDivisionError) else setVal v (Int.fdiv v.val x)
  | .imod x =>
    if x = 0 then (v, some .zeroDivisionError) else setVal v (Int.fmod v.val x)
  | .ipow x =>
    if x < 0 then (v, some .valueError) else setVal v (v.val ^ x.toNat)
  | .iand x => setVal v (Int.land v.val x)
  | .ior x => setVal v (Int.lor v.val x)
  | .ixor x => setVal v (Int.xor v.val x)
  | .ilshift x =>
    if x < 0 then (v, some .valueError) else setVal v (v.val * 2 ^ x.toNat)
  | .irshift x =>
    if x < 0 then (v, some .valueError) else setVal v (Int.fdiv v.val (2 ^ x.toNat))

/-- Embedding of `intbv.__add__` for an `intbv` right operand: the source
returns the plain Python int `self._val + other._val`. -/
def intbv.add (a b : intbv) : Int := a.val + b.val

/-- Embedding of `intbv.__sub__`: returns a plain int. -/
def intbv.sub (a b : intbv) : Int := a.val - b.val

/-- Embedding of `intbv.__mul__`: returns a plain int. -/
def intbv.mul (a b : intbv) : Int := a.val * b.val

/-- Embedding of `intbv.__floordiv__`: returns a plain int (Python floor
division; raises `ZeroDivisionError` on a zero divisor). -/
def intbv.floordiv (a b : intbv) : Except PyErr Int :=
  if b.val = 0 then .error .zeroDivisionError else .ok (Int.fdiv a.val b.val)

/-- Embedding of `intbv.__mod__`: returns a plain int (Python floor
modulus; raises `ZeroDivisionError` on a zero divisor). -/
def intbv.modOp (a b : intbv) : Except PyErr Int :=
  if b.val = 0 then .error .zeroDivisionError else .ok (Int.fmod a.val b.val)

/-- Embedding of `intbv.__and__`: `intbv(self._val & other._val)` — a new
`intbv` constructed without bounds. -/
def intbv.andOp (a b : intbv) : Except PyErr intbv :=
  intbvNew (Int.land a.val b.val) none none

/-- Embedding of `intbv.__or__`: a new `intbv` constructed without
bounds. -/
def intbv.orOp (a b : intbv) : Except PyErr intbv :=
  intbvNew (Int.lor a.val b.val) none none

/-- Embedding of `intbv.__xor__`: a new `intbv` constructed without
bounds. -/
def intbv.xorOp (a b : intbv) : Except PyErr intbv :=
  intbvNew (Int.xor a.val b.val) none none

/-- Embedding of `intbv.__lshift__`: `intbv(int(self._val) << other._val)`
— a new unbounded `intbv`; a negative shift count raises `ValueError` in
Python. -/
def intbv.lshift (a b : intbv) : Except PyErr intbv :=
  if b.val < 0 then .error .valueError
  else intbvNew (a.val * 2 ^ b.val.toNat) none none

/-- Embedding of `intbv.__rshift__`: `intbv(self._val >> other._val)` — a
new unbounded `intbv`; a negative shift count raises `ValueError`. -/
def intbv.rshift (a b : intbv) : Except PyErr intbv :=
  if b.val < 0 then .error .valueError
  else intbvNew (Int.fdiv a.val (2 ^ b.val.toNat)) none none

/-- Embedding of `intbv.signed()` (src/myhdl/_intbv.py): when the
instance was declared with `min >= 0` and has a width, reinterpret the
low `_nrbits` bits as a two's complement number (`sign` is the bit at
`msb = _nrbits - 1`, the low bits are masked, and `1 << msb` is
subtracted when the sign bit is set); otherwise keep the value.  The
result is a fresh `intbv`, with bounds `-2**(nrbits-1) .. 2**(nrbits-1)`
when a width is declared (so its constructor re-checks the bounds). -/
def intbv.signed (v : intbv) : Except PyErr intbv :=
  let retVal : Int :=
    match v.min? with
    | some m =>
      if 0 ≤ m ∧ 0 < v.nrbits then
        let msb : Nat := v.nrbits - 1
        let mask : Int := 2 ^ msb - 1
        let r : Int := Int.land v.val mask
        if 0 < Int.land (v.val / 2 ^ msb) 1 then r - 2 ^ msb else r
      else v.val
    | none => v.val
  if 0 < v.nrbits then
    let M : Int := 2 ^ (v.nrbits - 1)
    intbvNew retVal (some (-M)) (some M)
  else
    intbvNew retVal none none

/-- Embedding of the `_Signal` state that `_update`
(src/myhdl/_Signal.py) touches: the current and pending values and the
three waiter lists.  Values are embedded as `Int` (a `bit`-typed signal
holds `0` or `1`; an `intbv`-typed signal contributes its `_val`), and
waiters as identifiers. -/
structure Sig where
  val : Int
  next : Int
  eventWaiters : List Nat
  posedgeWaiters : List Nat
  negedgeWaiters : List Nat
deriving DecidableEq

/-- Embedding of `_Signal._update`: when the pending value differs,
snapshot and clear the event waiter list, extend the snapshot with the
posedge list on a falsy-to-truthy transition (`not val and next`, i.e.
`0` to non-zero) or with the negedge list on a truthy-to-falsy one,
install the new value, and return the snapshot; otherwise return `[]`
and leave the state alone. -/
def sigUpdate (s : Sig) : Sig × List Nat :=
  if s.val ≠ s.next then
    let waiters := s.eventWaiters
    if s.val = 0 ∧ s.next ≠ 0 then
      ({ s with val := s.next, eventWaiters := [], posedgeWaiters := [] },
       waiters ++ s.posedgeWaiters)
    else if s.next = 0 ∧ s.val ≠ 0 then
      ({ s with val := s.next, eventWaiters := [], negedgeWaiters := [] },
       waiters ++ s.negedgeWaiters)
    else
      ({ s with val := s.next, eventWaiters := [] }, waiters)
  else (s, [])

/-- Embedding of the `_DelayedSignal` state (src/myhdl/_Signal.py): the
`_Signal` fields plus the in-flight value `nextZ`, the stamp of the last
effective write, and the delay. -/
structure DSig where
  val : Int
  next : Int
  nextZ : Int
  timeStamp : Int
  delay : Int
  eventWaiters : List Nat
  posedgeWaiters : List Nat
  negedgeWaiters : List Nat
deriving DecidableEq

/-- A scheduled `_SignalWrap(sig, next, timeStamp)` event: the time it
fires at, the value it carries and the write stamp it carries. -/
structure SigWrap where
  time : Int
  next : Int
  timeStamp : Int
deriving DecidableEq

/-- Embedding of `_DelayedSignal._update`: refresh `_timeStamp` to the
current time when the pending value differs from the in-flight one,
record the pending value as in-flight, and schedule a `_SignalWrap`
carrying the pending value and the (possibly refreshed) stamp at
`now + delay`.  No waiters are woken here. -/
def dsUpdate (time : Int) (s : DSig) : DSig × SigWrap :=
  let ts : Int := if s.next ≠ s.nextZ then time else s.timeStamp
  ({ s with timeStamp := ts, nextZ := s.next },
   ⟨time + s.delay, s.next, ts⟩)

/-- Embedding of `_DelayedSignal._apply`: fire only when the carried
stamp still equals the signal's stamp and the value differs; then wake
exactly as `_Signal._update` does and install the value.  Otherwise the
event is stale (or a no-change) and nothing happens. -/
def dsApply (s : DSig) (next timeStamp : Int) : DSig × List Nat :=
  if timeStamp = s.timeStamp ∧ s.val ≠ next then
    let waiters := s.eventWaiters
    if s.val = 0 ∧ next ≠ 0 then
      ({ s with val := next, eventWaiters := [], posedgeWaiters := [] },
       waiters ++ s.posedgeWaiters)
    else if next = 0 ∧ s.val ≠ 0 then
      ({ s with val := next, eventWaiters := [], negedgeWaiters := [] },
       waiters ++ s.negedgeWaiters)
    else
      ({ s with val := next, eventWaiters := [] }, waiters)
  else (s, [])

/-- A write to a delayed signal: the `next` setter stores the value and
the scheduler then runs `_update` within the same simulated time. -/
def dsWrite (time v : Int) (s : DSig) : DSig × SigWrap :=
  dsUpdate time { s with next := v }

/-- The binary operator tags of the user-code tree that
`_AnnotateTypesVisitor.visit_BinOp` receives (a subset of `ast.operator`
that the convertor meets). -/
inductive BOp where
  | add
  | sub
  | mult
  | floordiv
  | mod
  | lshift
  | rshift
  | bitAnd
  | bitOr
  | bitXor
deriving DecidableEq

/-- The fragment of the user-code expression tree that the type
annotator (src/myhdl/conversion/_annotate.py) walks for the claims:
constants, names (carrying whether `_maybeNegative` holds of the
resolved object), unary minus and other unary operators, and binary
operators. -/
inductive PyExpr where
  | num (n : Int)
  | name (minNeg : Bool)
  | unaryNeg (e : PyExpr)
  | unaryOther (e : PyExpr)
  | binop (op : BOp) (l r : PyExpr)
deriving DecidableEq

/-- Embedding of the `signed` attribute computed by
`_AnnotateTypesVisitor`: `visit_Constant` marks constants unsigned,
`getName` uses `_maybeNegative(node.obj)`, `visit_UnaryOp` copies the
operand (forcing `signed` for a negated constant), and `visit_BinOp`
sets `node.signed = node.left.signed or node.right.signed` for every
operator -- the width/sign inference below it is commented out in this
source. -/
def annotSigned : PyExpr → Bool
  | .num _ => false
  | .name minNeg => minNeg
  | .unaryNeg e =>
    match e with
    | .num _ => true
    | _ => annotSigned e
  | .unaryOther e => annotSigned e
  | .binop _ l r => annotSigned l || annotSigned r

/-- The kinds of object a block function's flattened return value can
contain, as `_Block._verifySubs` (src/myhdl/_block.py) distinguishes
them: block instances and instantiators carry their `modctxt` flag,
cosimulation objects pass unchecked, and anything else is `other`. -/
inductive SubObj where
  | blk (modctxt : Bool)
  | inst (modctxt : Bool)
  | cosim
  | other
deriving DecidableEq

/-- The two `BlockError` messages `_verifySubs` can raise:
`_error.ArgType` ("should return block or instantiator objects") and
`_error.InstanceError` ("should be encapsulated in a block decorator"). -/
inductive BlockErr where
  | argType
  | instanceError
deriving DecidableEq

/-- Embedding of `_Block._verifySubs`: walk the flattened `subs` in
order; a non-block/instantiator/cosimulation element raises the ArgType
error; a block or instantiator outside a block context raises the
InstanceError error; otherwise continue. -/
def verifySubs : List SubObj → Option BlockErr
  | [] => none
  | s :: rest =>
    match s with
    | .other => some .argType
    | .cosim => verifySubs rest
    | .blk m => if m then verifySubs rest else some .instanceError
    | .inst m => if m then verifySubs rest else some .instanceError

/-- The per-operand data of a `fixbv` that the `(l, '*', r)` tuple form
of `fixbv.__init__` (src/myhdl/_fixbv.py) reads: the tracked real value,
the real bounds, the signedness and the integer/fractional widths.  The
Python `float`s are embedded as rationals. -/
structure FixOperand where
  fval : ℚ
  fmin : ℚ
  fmax : ℚ
  signed : Bool
  wi : Nat
  wf : Nat
deriving DecidableEq

/-- Embedding of the `val[1] == '*'` branch of `fixbv.__init__`: widths
add up, the real value is the product, and the real bounds are the two
`min(...)` expressions when at least one operand is signed, or the
products of the bounds when both are unsigned. -/
def fixbvMulInit (l r : FixOperand) : FixOperand :=
  let wi := l.wi + r.wi
  let wf := l.wf + r.wf
  let fval := l.fval * r.fval
  if l.signed || r.signed then
    { fval := fval
      fmin := min (l.fmin * r.fmax) (l.fmax * r.fmin)
      fmax := min (r.fmin * l.fmax) (r.fmax * l.fmin)
      signed := true
      wi := wi
      wf := wf }
  else
    { fval := fval
      fmin := l.fmin * r.fmin
      fmax := l.fmax * r.fmax
      signed := false
      wi := wi
      wf := wf }

/-! ### Helper lemmas -/

/-- With both bounds present, `_handleBounds` passes exactly when the
value lies in `[min, max)`. -/
theorem handleBounds_none_iff (v : intbv) (mn mx : Int)
    (h1 : v.min? = some mn) (h2 : v.max? = some mx) :
    handleBounds v = none ↔ (mn ≤ v.val ∧ v.val < mx) := by
  simp only [handleBounds, h1, h2]
  split_ifs with hM hm <;> simp <;> omega

/-- With both bounds present, `_handleBounds` raises `ValueError` on any
out-of-range value. -/
theorem handleBounds_some (v : intbv) (mn mx : Int)
    (h1 : v.min? = some mn) (h2 : v.max? = some mx)
    (hout : ¬(mn ≤ v.val ∧ v.val < mx)) :
    handleBounds v = some PyErr.valueError := by
  simp only [handleBounds, h1, h2]
  split_ifs with hM hm <;> first | rfl | omega

/-- Behaviour of the mutate-then-check tail shared by every mutator. -/
theorem setVal_spec (v : intbv) (n mn mx : Int)
    (h1 : v.min? = some mn) (h2 : v.max? = some mx) :
    (setVal v n).1.val = n ∧
    ((setVal v n).2 = none ↔ (mn ≤ n ∧ n < mx)) := by
  refine ⟨rfl, ?_⟩
  exact handleBounds_none_iff { v with val := n } mn mx h1 h2

/-- Constructing an `intbv` without bounds never raises and yields width
`0`. -/
theorem intbvNew_unbounded (x : Int) :
    intbvNew x none none = Except.ok ⟨x, none, none, 0⟩ := rfl

/-! ### Claims about the signal update semantics -/

/-- C1: for every signal whose pending next value differs from its
current value, `_Signal._update` snapshots the event waiter list and
clears it, additionally collects (and clears) the posedge waiter list on
a falsy-to-truthy transition (on a bit-valued signal, exactly `0` to
`1`) and the negedge list on the converse transition, replaces the
current value by the pending next value, and returns exactly the
collected waiters; when next equals current it returns the empty list
and changes nothing. -/
theorem sig_update_spec (s : Sig) :
    (s.val = s.next → sigUpdate s = (s, [])) ∧
    (s.val ≠ s.next →
      (sigUpdate s).1.val = s.next ∧
      (sigUpdate s).1.next = s.next ∧
      (sigUpdate s).1.eventWaiters = [] ∧
      (sigUpdate s).2 =
        s.eventWaiters
          ++ (if s.val = 0 ∧ s.next ≠ 0 then s.posedgeWaiters else [])
          ++ (if s.next = 0 ∧ s.val ≠ 0 then s.negedgeWaiters else []) ∧
      (sigUpdate s).1.posedgeWaiters =
        (if s.val = 0 ∧ s.next ≠ 0 then [] else s.posedgeWaiters) ∧
      (sigUpdate s).1.negedgeWaiters =
        (if s.next = 0 ∧ s.val ≠ 0 then [] else s.negedgeWaiters)) := by
  constructor
  · intro h
    simp [sigUpdate, h]
  · intro h
    by_cases h1 : s.val = 0 ∧ s.next ≠ 0
    · obtain ⟨ha, hb⟩ := h1
      have h2 : ¬(s.next = 0 ∧ s.val ≠ 0) := by
        rintro ⟨h2a, _⟩
        exact hb h2a
      simp [sigUpdate, h, ha, hb, Ne.symm hb, h2]
    · by_cases h2 : s.next = 0 ∧ s.val ≠ 0
      · simp [sigUpdate, h, h1, h2]
      · simp [sigUpdate, h, h1, h2]

/-- Witness for C1: a bit signal going `0` to `1` with one event waiter
and one posedge waiter returns both and installs the new value. -/
theorem sig_update_spec_witness :
    (Sig.mk 0 1 [5] [7] [9]).val ≠ (Sig.mk 0 1 [5] [7] [9]).next ∧
    (sigUpdate (Sig.mk 0 1 [5] [7] [9])).2 = [5, 7] ∧
    (sigUpdate (Sig.mk 0 1 [5] [7] [9])).1.val = 1 := by
  have h := (sig_update_spec (Sig.mk 0 1 [5] [7] [9])).2 (by decide)
  refine ⟨by decide, ?_, ?_⟩
  · rw [h.2.2.2.1]
    decide
  · rw [h.1]

/-- A stale apply (carried stamp no longer the signal's stamp) changes
nothing and wakes nobody. -/
theorem dsApply_stale (s : DSig) (n ts : Int) (h : ts ≠ s.timeStamp) :
    dsApply s n ts = (s, []) := by
  simp [dsApply, h]

/-- C6 (amended): a next-write on a delayed signal schedules an apply
event at `now + delay` carrying the timeStamp of the latest effective
write; `_apply(next, timeStamp)` changes the value and wakes waiters
only when the carried stamp equals the signal's stamp and the value
differs: a stale apply is ignored, and an apply carrying the current
value changes nothing and wakes nobody even when its stamp matches.
Of several effective writes at
distinct times only the last value is applied -- the superseded wrap
carries an older stamp and is ignored.  (Writes at the same simulated
time all carry that time as their stamp, so each of their applies can
fire in turn; see the counterexample.) -/
theorem delayed_signal_spec :
    (∀ (s : DSig) (t v : Int),
      (dsWrite t v s).2.time = t + s.delay ∧
      (dsWrite t v s).2.next = v ∧
      (dsWrite t v s).2.timeStamp = (dsWrite t v s).1.timeStamp ∧
      (dsWrite t v s).1.timeStamp = (if v ≠ s.nextZ then t else s.timeStamp) ∧
      (dsWrite t v s).1.nextZ = v ∧
      (dsWrite t v s).1.val = s.val ∧
      (dsWrite t v s).1.eventWaiters = s.eventWaiters ∧
      (dsWrite t v s).1.posedgeWaiters = s.posedgeWaiters ∧
      (dsWrite t v s).1.negedgeWaiters = s.negedgeWaiters) ∧
    (∀ (s : DSig) (n ts : Int), ts ≠ s.timeStamp → dsApply s n ts = (s, [])) ∧
    (∀ (s : DSig) (n ts : Int), s.val = n → dsApply s n ts = (s, [])) ∧
    (∀ (s : DSig) (n ts : Int), ts = s.timeStamp → s.val ≠ n →
      (dsApply s n ts).1.val = n ∧
      (dsApply s n ts).1.eventWaiters = [] ∧
      (dsApply s n ts).2 =
        s.eventWaiters
          ++ (if s.val = 0 ∧ n ≠ 0 then s.posedgeWaiters else [])
          ++ (if n = 0 ∧ s.val ≠ 0 then s.negedgeWaiters else [])) ∧
    (∀ (s : DSig) (t1 t2 v1 v2 : Int), t1 ≠ t2 → v1 ≠ s.nextZ → v2 ≠ v1 →
      dsApply (dsWrite t2 v2 (dsWrite t1 v1 s).1).1
          (dsWrite t1 v1 s).2.next (dsWrite t1 v1 s).2.timeStamp
        = ((dsWrite t2 v2 (dsWrite t1 v1 s).1).1, [])) := by
  refine ⟨?_, ?_, ?_, ?_, ?_⟩
  · intro s t v
    by_cases h : v ≠ s.nextZ <;> simp [dsWrite, dsUpdate, h]
  · intro s n ts h
    exact dsApply_stale s n ts h
  · intro s n ts h
    simp [dsApply, h]
  · intro s n ts hts hval
    by_cases h1 : s.val = 0 ∧ n ≠ 0
    · obtain ⟨ha, hb⟩ := h1
      have h2 : ¬(n = 0 ∧ s.val ≠ 0) := by
        rintro ⟨h2a, _⟩
        exact hb h2a
      simp [dsApply, hts, hval, ha, hb, Ne.symm hb, h2]
    · by_cases h2 : n = 0 ∧ s.val ≠ 0
      · simp [dsApply, hts, hval, h1, h2]
      · simp [dsApply, hts, hval, h1, h2]
  · intro s t1 t2 v1 v2 ht hv1 hv2
    have hw1 : (dsWrite t1 v1 s).2.timeStamp = t1 := by
      simp [dsWrite, dsUpdate, hv1]
    have hw2 : (dsWrite t2 v2 (dsWrite t1 v1 s).1).1.timeStamp = t2 := by
      have hz : (dsWrite t1 v1 s).1.nextZ = v1 := by
        simp [dsWrite, dsUpdate]
      simp [dsWrite, dsUpdate, hz, hv2]
    rw [hw1]
    exact dsApply_stale _ _ _ (by rw [hw2]; exact ht)

/-- Witness for C6: the stale-apply, equal-value-apply and
effective-apply branches at concrete inputs; the equal-value apply
carries the matching stamp `5` yet wakes nobody. -/
theorem delayed_signal_spec_witness :
    dsApply (DSig.mk 0 1 1 5 10 [1] [2] [3]) 1 4
      = (DSig.mk 0 1 1 5 10 [1] [2] [3], []) ∧
    dsApply (DSig.mk 0 1 1 5 10 [1] [2] [3]) 0 5
      = (DSig.mk 0 1 1 5 10 [1] [2] [3], []) ∧
    (dsApply (DSig.mk 0 1 1 5 10 [1] [2] [3]) 1 5).1.val = 1 ∧
    (dsApply (DSig.mk 0 1 1 5 10 [1] [2] [3]) 1 5).2 = [1, 2] ∧
    dsApply
        (dsWrite 7 0 (dsWrite 5 1 (DSig.mk 0 0 0 0 10 [1] [2] [3])).1).1
        (dsWrite 5 1 (DSig.mk 0 0 0 0 10 [1] [2] [3])).2.next
        (dsWrite 5 1 (DSig.mk 0 0 0 0 10 [1] [2] [3])).2.timeStamp
      = ((dsWrite 7 0 (dsWrite 5 1 (DSig.mk 0 0 0 0 10 [1] [2] [3])).1).1, []) := by
  refine ⟨?_, ?_, ?_, ?_, ?_⟩
  · exact delayed_signal_spec.2.1 _ 1 4 (by decide)
  · exact delayed_signal_spec.2.2.1 _ 0 5 rfl
  · exact (delayed_signal_spec.2.2.2.1 _ 1 5 rfl (by decide)).1
  · rw [(delayed_signal_spec.2.2.2.1 (DSig.mk 0 1 1 5 10 [1] [2] [3]) 1 5 rfl
      (by decide)).2.2]
    decide
  · exact delayed_signal_spec.2.2.2.2 _ 5 7 1 0 (by decide) (by decide) (by decide)

/-- Counterexample for C6: two writes at the same time `5` (values `1`
then `0`) on a delayed signal with delay `10` both schedule wraps whose
stamp is `5`, which still matches the signal's stamp at time `15`; so
the superseded value `1` is applied too -- it changes the value and
wakes the event and posedge waiters -- contradicting that only the last
effective value (`0`) is applied. -/
theorem delayed_same_time_cex :
    (dsWrite 5 1 (DSig.mk 0 0 0 0 10 [1] [2] [3])).2.next = 1 ∧
    (dsApply (dsWrite 5 0 (dsWrite 5 1 (DSig.mk 0 0 0 0 10 [1] [2] [3])).1).1
        (dsWrite 5 1 (DSig.mk 0 0 0 0 10 [1] [2] [3])).2.next
        (dsWrite 5 1 (DSig.mk 0 0 0 0 10 [1] [2] [3])).2.timeStamp).1.val = 1 ∧
    (dsApply (dsWrite 5 0 (dsWrite 5 1 (DSig.mk 0 0 0 0 10 [1] [2] [3])).1).1
        (dsWrite 5 1 (DSig.mk 0 0 0 0 10 [1] [2] [3])).2.next
        (dsWrite 5 1 (DSig.mk 0 0 0 0 10 [1] [2] [3])).2.timeStamp).2 = [1, 2] := by
  decide

/-! ### Claims about the type annotator and the block contract -/

/-- C7 (amended): for every binary bit-and/bit-or/bit-xor expression
node, the type annotator of this source computes no width and marks the
node signed if and only if at least one operand is signed
(`node.signed = node.left.signed or node.right.signed`); the
width/signedness inference the spec describes is commented out. -/
theorem binop_signed_or (op : BOp) (l r : PyExpr)
    (hop : op = BOp.bitAnd ∨ op = BOp.bitOr ∨ op = BOp.bitXor) :
    annotSigned (.binop op l r) = (annotSigned l || annotSigned r) := by
  cases op <;> rfl

/-- Witness for C7: a bit-or of a signed name and a constant is marked
signed. -/
theorem binop_signed_or_witness :
    annotSigned (.binop .bitOr (.name true) (.num 2))
      = (annotSigned (.name true) || annotSigned (.num 2)) :=
  binop_signed_or .bitOr (.name true) (.num 2) (Or.inr (Or.inl rfl))

/-- Counterexample for C7: a bit-and node with one signed and one
unsigned operand is marked signed by the annotator, although not both
operands are signed -- refuting "signed if and only if both operands
are signed". -/
theorem binop_signed_cex :
    annotSigned (.binop .bitAnd (.name true) (.name false)) = true ∧
    (annotSigned (.name true) && annotSigned (.name false)) = false := by
  decide

/-- C8 (amended): when every element of the flattened return value is a
block instance, an instantiator or a cosimulation object, the ArgType
(`should return block or instantiator objects`) error is not raised;
when the list contains some other element, that error is raised provided
every earlier element passes both checks (otherwise the earlier
element's InstanceError is raised first, as the counterexample shows). -/
theorem verifySubs_argType_spec :
    (∀ subs : List SubObj, (∀ s ∈ subs, s ≠ SubObj.other) →
      verifySubs subs ≠ some BlockErr.argType) ∧
    (∀ pre rest : List SubObj,
      (∀ s ∈ pre, s = SubObj.cosim ∨ s = SubObj.blk true ∨ s = SubObj.inst true) →
      verifySubs (pre ++ SubObj.other :: rest) = some BlockErr.argType) := by
  constructor
  · intro subs
    induction subs with
    | nil => intro _; simp [verifySubs]
    | cons s rest ih =>
      intro h
      have hs := h s (by simp)
      have hrest : ∀ x ∈ rest, x ≠ SubObj.other := fun x hx => h x (by simp [hx])
      cases s with
      | other => exact absurd rfl hs
      | cosim => simpa [verifySubs] using ih hrest
      | blk m =>
        cases m
        · simp [verifySubs]
        · simpa [verifySubs] using ih hrest
      | inst m =>
        cases m
        · simp [verifySubs]
        · simpa [verifySubs] using ih hrest
  · intro pre
    induction pre with
    | nil => intro rest _; simp [verifySubs]
    | cons s pre ih =>
      intro rest h
      have hs := h s (by simp)
      have hpre : ∀ x ∈ pre, x = SubObj.cosim ∨ x = SubObj.blk true ∨ x = SubObj.inst true :=
        fun x hx => h x (by simp [hx])
      rcases hs with hs | hs | hs <;> subst hs <;>
        simpa [verifySubs] using ih rest hpre

/-- Witness for C8: a clean list raises no ArgType error; a list whose
offending element is preceded only by in-context blocks raises it. -/
theorem verifySubs_argType_spec_witness :
    verifySubs [SubObj.cosim, SubObj.blk true] ≠ some BlockErr.argType ∧
    verifySubs ([SubObj.cosim, SubObj.blk true] ++ SubObj.other :: [SubObj.inst false])
      = some BlockErr.argType := by
  constructor
  · exact verifySubs_argType_spec.1 _ (by decide)
  · exact verifySubs_argType_spec.2 [SubObj.cosim, SubObj.blk true] [SubObj.inst false]
      (by decide)

/-- Counterexample for C8: the flattened list `[block(modctxt=False),
other]` contains a non-block element, yet construction raises the
InstanceError message (`should be encapsulated in a block decorator`),
not the ArgType message the claim names. -/
theorem verifySubs_order_cex :
    SubObj.other ∈ [SubObj.blk false, SubObj.other] ∧
    verifySubs [SubObj.blk false, SubObj.other] = some BlockErr.instanceError ∧
    verifySubs [SubObj.blk false, SubObj.other] ≠ some BlockErr.argType := by
  decide

/-- C9: for every `fixbv` built from a tuple `(l, '*', r)` with at least
one signed operand, the code computes both real bounds as a minimum of
the same cross products: `fmin = min(l.fmin*r.fmax, l.fmax*r.fmin)` and
`fmax = min(r.fmin*l.fmax, r.fmax*l.fmin)`, which is the same value --
`min(left.min*right.max, left.max*right.min)` for both bounds. -/
theorem fixbv_mul_bounds (l r : FixOperand) (h : (l.signed || r.signed) = true) :
    (fixbvMulInit l r).fmin = min (l.fmin * r.fmax) (l.fmax * r.fmin) ∧
    (fixbvMulInit l r).fmax = min (l.fmin * r.fmax) (l.fmax * r.fmin) ∧
    (fixbvMulInit l r).fmin = (fixbvMulInit l r).fmax := by
  have h1 : (fixbvMulInit l r).fmin = min (l.fmin * r.fmax) (l.fmax * r.fmin) := by
    simp [fixbvMulInit, h]
  have h2 : (fixbvMulInit l r).fmax = min (r.fmin * l.fmax) (r.fmax * l.fmin) := by
    simp [fixbvMulInit, h]
  have h3 : min (r.fmin * l.fmax) (r.fmax * l.fmin)
      = min (l.fmin * r.fmax) (l.fmax * r.fmin) := by
    rw [mul_comm r.fmin l.fmax, mul_comm r.fmax l.fmin, min_comm]
  refine ⟨h1, ?_, ?_⟩
  · rw [h2, h3]
  · rw [h1, h2, h3]

/-- Witness for C9: a signed times unsigned operand pair; both bounds
come out as the same minimum. -/
theorem fixbv_mul_bounds_witness :
    (fixbvMulInit (FixOperand.mk 0 (-3) 4 true 3 2) (FixOperand.mk 0 0 6 false 3 1)).fmin
      = min ((-3) * 6) (4 * 0) ∧
    (fixbvMulInit (FixOperand.mk 0 (-3) 4 true 3 2) (FixOperand.mk 0 0 6 false 3 1)).fmax
      = min ((-3) * 6) (4 * 0) := by
  have h := fixbv_mul_bounds (FixOperand.mk 0 (-3) 4 true 3 2)
    (FixOperand.mk 0 0 6 false 3 1) rfl
  exact ⟨h.1, h.2.1⟩

/-! ### Claims about intbv mutations and operators -/

/-- C2: for every `intbv` constructed with both bounds, every mutating
operation that completes normally (bit assignment, slice assignment, and
every in-place arithmetic or bitwise operator) leaves
`min <= value < max`; and whenever the state after the call violates the
bounds an exception was raised. -/
theorem intbv_mutation_bounds (v : intbv) (mn mx : Int) (m : Mutation)
    (h1 : v.min? = some mn) (h2 : v.max? = some mx) :
    ((applyMutation v m).2 = none →
      mn ≤ (applyMutation v m).1.val ∧ (applyMutation v m).1.val < mx) ∧
    (¬(mn ≤ (applyMutation v m).1.val ∧ (applyMutation v m).1.val < mx) →
      (applyMutation v m).2 ≠ none) := by
  have key : ∀ n : Int,
      ((setVal v n).2 = none →
        mn ≤ (setVal v n).1.val ∧ (setVal v n).1.val < mx) ∧
      (¬(mn ≤ (setVal v n).1.val ∧ (setVal v n).1.val < mx) →
        (setVal v n).2 ≠ none) := by
    intro n
    obtain ⟨hv, hiff⟩ := setVal_spec v n mn mx h1 h2
    rw [hv]
    constructor
    · intro hok
      exact (hiff.mp hok)
    · intro hout hok
      exact hout (hiff.mp hok)
  have triv : ∀ w : intbv, ∀ e : PyErr,
      (((w, some e) : intbv × Option PyErr).2 = none →
        mn ≤ ((w, some e) : intbv × Option PyErr).1.val ∧
          ((w, some e) : intbv × Option PyErr).1.val < mx) ∧
      (¬(mn ≤ ((w, some e) : intbv × Option PyErr).1.val ∧
          ((w, some e) : intbv × Option PyErr).1.val < mx) →
        ((w, some e) : intbv × Option PyErr).2 ≠ none) := by
    intro w e
    constructor
    · intro hok
      exact absurd hok (by simp)
    · intro _
      simp
  cases m with
  | setBit i b =>
    by_cases hb1 : b = 1
    · by_cases hi : i < 0
      · simpa [applyMutation, hb1, hi] using triv v .valueError
      · simpa [applyMutation, hb1, hi] using key _
    · by_cases hb0 : b = 0
      · by_cases hi : i < 0
        · simpa [applyMutation, hb1, hb0, hi] using triv v .valueError
        · simpa [applyMutation, hb1, hb0, hi] using key _
      · simpa [applyMutation, hb1, hb0] using triv v .valueError
  | setSlice i j x =>
    by_cases hj : j < 0
    · simpa [applyMutation, hj] using triv v .valueError
    · by_cases hij : i ≤ j
      · simpa [applyMutation, hj, hij] using triv v .valueError
      · by_cases hx : (2 : Int) ^ (i - j).toNat ≤ x ∨ x < -(2 : Int) ^ (i - j).toNat
        · simpa [applyMutation, hj, hij, hx] using triv v .valueError
        · simpa [applyMutation, hj, hij, hx] using key _
  | setSliceOpen j x =>
    by_cases hj : j < 0
    · simpa [applyMutation, hj] using triv v .valueError
    · simpa [applyMutation, hj] using key _
  | iadd x => simpa [applyMutation] using key _
  | isub x => simpa [applyMutation] using key _
  | imul x => simpa [applyMutation] using key _
  | ifloordiv x =>
    by_cases hx : x = 0
    · simpa [applyMutation, hx] using triv v .zeroDivisionError
    · simpa [applyMutation, hx] using key _
  | imod x =>
    by_cases hx : x = 0
    · simpa [applyMutation, hx] using triv v .zeroDivisionError
    · simpa [applyMutation, hx] using key _
  | ipow x =>
    by_cases hx : x < 0
    · simpa [applyMutation, hx] using triv v .valueError
    · simpa [applyMutation, hx] using key _
  | iand x => simpa [applyMutation] using key _
  | ior x => simpa [applyMutation] using key _
  | ixor x => simpa [applyMutation] using key _
  | ilshift x =>
    by_cases hx : x < 0
    · simpa [applyMutation, hx] using triv v .valueError
    · simpa [applyMutation, hx] using key _
  | irshift x =>
    by_cases hx : x < 0
    · simpa [applyMutation, hx] using triv v .valueError
    · simpa [applyMutation, hx] using key _

/-- Witness for C2: an in-place addition on `intbv(3, min=0, max=8)`. -/
theorem intbv_mutation_bounds_witness :
    ((applyMutation ⟨3, some 0, some 8, 4⟩ (.iadd 2)).2 = none →
      0 ≤ (applyMutation ⟨3, some 0, some 8, 4⟩ (.iadd 2)).1.val ∧
        (applyMutation ⟨3, some 0, some 8, 4⟩ (.iadd 2)).1.val < 8) ∧
    (¬(0 ≤ (applyMutation ⟨3, some 0, some 8, 4⟩ (.iadd 2)).1.val ∧
        (applyMutation ⟨3, some 0, some 8, 4⟩ (.iadd 2)).1.val < 8) →
      (applyMutation ⟨3, some 0, some 8, 4⟩ (.iadd 2)).2 ≠ none) :=
  intbv_mutation_bounds ⟨3, some 0, some 8, 4⟩ 0 8 (.iadd 2) rfl rfl

/-- C10: when an in-place arithmetic or bitwise operation on a bounded
`intbv` produces a result outside `[min, max)`, the `ValueError` is
raised only after the value has been mutated: the object is left holding
the out-of-range result and is not restored. -/
theorem intbv_inplace_nonatomic (v : intbv) (mn mx x : Int)
    (h1 : v.min? = some mn) (h2 : v.max? = some mx) :
    (¬(mn ≤ v.val + x ∧ v.val + x < mx) →
      applyMutation v (.iadd x)
        = ({ v with val := v.val + x }, some PyErr.valueError)) ∧
    (¬(mn ≤ v.val - x ∧ v.val - x < mx) →
      applyMutation v (.isub x)
        = ({ v with val := v.val - x }, some PyErr.valueError)) ∧
    (¬(mn ≤ v.val * x ∧ v.val * x < mx) →
      applyMutation v (.imul x)
        = ({ v with val := v.val * x }, some PyErr.valueError)) ∧
    (x ≠ 0 → ¬(mn ≤ Int.fdiv v.val x ∧ Int.fdiv v.val x < mx) →
      applyMutation v (.ifloordiv x)
        = ({ v with val := Int.fdiv v.val x }, some PyErr.valueError)) ∧
    (x ≠ 0 → ¬(mn ≤ Int.fmod v.val x ∧ Int.fmod v.val x < mx) →
      applyMutation v (.imod x)
        = ({ v with val := Int.fmod v.val x }, some PyErr.valueError)) ∧
    (¬(mn ≤ Int.land v.val x ∧ Int.land v.val x < mx) →
      applyMutation v (.iand x)
        = ({ v with val := Int.land v.val x }, some PyErr.valueError)) ∧
    (¬(mn ≤ Int.lor v.val x ∧ Int.lor v.val x < mx) →
      applyMutation v (.ior x)
        = ({ v with val := Int.lor v.val x }, some PyErr.valueError)) ∧
    (¬(mn ≤ Int.xor v.val x ∧ Int.xor v.val x < mx) →
      applyMutation v (.ixor x)
        = ({ v with val := Int.xor v.val x }, some PyErr.valueError)) ∧
    (0 ≤ x → ¬(mn ≤ v.val * 2 ^ x.toNat ∧ v.val * 2 ^ x.toNat < mx) →
      applyMutation v (.ilshift x)
        = ({ v with val := v.val * 2 ^ x.toNat }, some PyErr.valueError)) ∧
    (0 ≤ x → ¬(mn ≤ Int.fdiv v.val (2 ^ x.toNat) ∧ Int.fdiv v.val (2 ^ x.toNat) < mx) →
      applyMutation v (.irshift x)
        = ({ v with val := Int.fdiv v.val (2 ^ x.toNat) }, some PyErr.valueError)) := by
  have key : ∀ n : Int, ¬(mn ≤ n ∧ n < mx) →
      setVal v n = ({ v with val := n }, some PyErr.valueError) := by
    intro n hout
    show ({ v with val := n }, handleBounds { v with val := n })
      = ({ v with val := n }, some PyErr.valueError)
    rw [handleBounds_some { v with val := n } mn mx h1 h2 hout]
  refine ⟨fun h => ?_, fun h => ?_, fun h => ?_, fun hx h => ?_, fun hx h => ?_,
    fun h => ?_, fun h => ?_, fun h => ?_, fun hx h => ?_, fun hx h => ?_⟩
  · simpa [applyMutation] using key _ h
  · simpa [applyMutation] using key _ h
  · simpa [applyMutation] using key _ h
  · simpa [applyMutation, hx] using key _ h
  · simpa [applyMutation, hx] using key _ h
  · simpa [applyMutation] using key _ h
  · simpa [applyMutation] using key _ h
  · simpa [applyMutation] using key _ h
  · simpa [applyMutation, not_lt.mpr hx] using key _ h
  · simpa [applyMutation, not_lt.mpr hx] using key _ h

/-- Witness for C10: `intbv(3, min=0, max=8) += 7` raises and leaves the
value at the out-of-range `10`. -/
theorem intbv_inplace_nonatomic_witness :
    applyMutation ⟨3, some 0, some 8, 4⟩ (.iadd 7)
      = (⟨10, some 0, some 8, 4⟩, some PyErr.valueError) := by
  have h := (intbv_inplace_nonatomic ⟨3, some 0, some 8, 4⟩ 0 8 7 rfl rfl).1
    (by decide)
  simpa using h

/-- C3 (amended): in this source the arithmetic binary operators of
`intbv` (`+`, `-`, `*`, `//`, `%`) return plain Python integers carrying
no width at all, and the bitwise and shift operators (`&`, `|`, `^`,
`<<`, `>>`) return a new unconstrained `intbv` -- no bounds and width
`0` -- holding the operation applied to the values.  No operator derives
a result width from the operand widths. -/
theorem intbv_binop_results (a b : intbv) :
    intbv.add a b = a.val + b.val ∧
    intbv.sub a b = a.val - b.val ∧
    intbv.mul a b = a.val * b.val ∧
    (b.val ≠ 0 → intbv.floordiv a b = .ok (Int.fdiv a.val b.val)) ∧
    (b.val ≠ 0 → intbv.modOp a b = .ok (Int.fmod a.val b.val)) ∧
    intbv.andOp a b = .ok ⟨Int.land a.val b.val, none, none, 0⟩ ∧
    intbv.orOp a b = .ok ⟨Int.lor a.val b.val, none, none, 0⟩ ∧
    intbv.xorOp a b = .ok ⟨Int.xor a.val b.val, none, none, 0⟩ ∧
    (0 ≤ b.val → intbv.lshift a b = .ok ⟨a.val * 2 ^ b.val.toNat, none, none, 0⟩) ∧
    (0 ≤ b.val → intbv.rshift a b = .ok ⟨Int.fdiv a.val (2 ^ b.val.toNat), none, none, 0⟩) := by
  refine ⟨rfl, rfl, rfl, fun h => ?_, fun h => ?_, ?_, ?_, ?_, fun h => ?_, fun h => ?_⟩
  · simp [intbv.floordiv, h]
  · simp [intbv.modOp, h]
  · exact intbvNew_unbounded _
  · exact intbvNew_unbounded _
  · exact intbvNew_unbounded _
  · simp [intbv.lshift, not_lt.mpr h]
    exact intbvNew_unbounded _
  · simp [intbv.rshift, not_lt.mpr h]
    exact intbvNew_unbounded _

/-- Witness for C3 (amended): floor division and left shift at concrete
operands. -/
theorem intbv_binop_results_witness :
    intbv.floordiv ⟨5, none, none, 0⟩ ⟨2, none, none, 0⟩ = .ok 2 ∧
    intbv.lshift ⟨5, none, none, 0⟩ ⟨2, none, none, 0⟩
      = .ok ⟨20, none, none, 0⟩ := by
  constructor
  · have h := (intbv_binop_results ⟨5, none, none, 0⟩ ⟨2, none, none, 0⟩).2.2.2.1
      (by decide)
    rw [h]
    rfl
  · have h :=
      (intbv_binop_results ⟨5, none, none, 0⟩ ⟨2, none, none, 0⟩).2.2.2.2.2.2.2.2.1
      (by decide)
    rw [h]
    rfl

/-- Counterexample for C3: two width-4 vectors (as the constructor
builds them from `min=0`, `max=16`) combined with `&` yield a result of
width `0`, not the claimed `max(4, 4) = 4`; the result of `+` on the
same operands is a plain integer, not a bit-vector at all. -/
theorem intbv_binop_width_cex :
    (intbvNew 3 (some 0) (some 16)).map intbv.nrbits = .ok 4 ∧
    (intbvNew 5 (some 0) (some 16)).map intbv.nrbits = .ok 4 ∧
    (intbv.andOp ⟨3, some 0, some 16, 4⟩ ⟨5, some 0, some 16, 4⟩).map intbv.nrbits
      = .ok 0 ∧
    (0 : Nat) ≠ Nat.max 4 4 := by
  refine ⟨rfl, rfl, rfl, by decide⟩

/-! ### A toolkit for two's complement bit reasoning on `Int` -/

/-- Bits of a cast natural number are its bits. -/
theorem int_testBit_natCast (n : ℕ) (i : ℕ) : (↑n : ℤ).testBit i = n.testBit i := rfl

/-- Bits of `-1` are all set. -/
theorem int_testBit_neg_one (i : ℕ) : (-1 : ℤ).testBit i = true := by
  show (Int.negSucc 0).testBit i = true
  simp [Int.testBit]

/-- Two integers with the same bits are equal. -/
theorem int_eq_of_testBit_eq {a b : ℤ} (h : ∀ i, a.testBit i = b.testBit i) : a = b := by
  cases a with
  | ofNat m =>
    cases b with
    | ofNat n =>
      have : m = n := by
        refine Nat.eq_of_testBit_eq fun i => ?_
        simpa [Int.testBit] using h i
      rw [this]
    | negSucc n =>
      exfalso
      have hm : m.testBit (Nat.max m n) = false :=
        Nat.testBit_lt_two_pow
          (lt_of_le_of_lt (Nat.le_max_left m n) (Nat.lt_two_pow _))
      have hn : n.testBit (Nat.max m n) = false :=
        Nat.testBit_lt_two_pow
          (lt_of_le_of_lt (Nat.le_max_right m n) (Nat.lt_two_pow _))
      have := h (Nat.max m n)
      simp [Int.testBit, hm, hn] at this
  | negSucc m =>
    cases b with
    | ofNat n =>
      exfalso
      have hm : m.testBit (Nat.max m n) = false :=
        Nat.testBit_lt_two_pow
          (lt_of_le_of_lt (Nat.le_max_left m n) (Nat.lt_two_pow _))
      have hn : n.testBit (Nat.max m n) = false :=
        Nat.testBit_lt_two_pow
          (lt_of_le_of_lt (Nat.le_max_right m n) (Nat.lt_two_pow _))
      have := h (Nat.max m n)
      simp [Int.testBit, hm, hn] at this
    | negSucc n =>
      have : m = n := by
        refine Nat.eq_of_testBit_eq fun i => ?_
        have := h i
        simpa [Int.testBit] using this
      rw [this]

/-- Euclidean division of `negSucc m` by a power of two. -/
theorem negSucc_ediv_two_pow (m i : ℕ) :
    (Int.negSucc m) / (2 : ℤ) ^ i = Int.negSucc (m / 2 ^ i) := by
  have hpos : (0 : ℤ) < 2 ^ i := by positivity
  have hm : ((m : ℤ)) = 2 ^ i * ((m / 2 ^ i : ℕ) : ℤ) + ((m % 2 ^ i : ℕ) : ℤ) := by
    exact_mod_cast (Nat.div_add_mod m (2 ^ i)).symm
  have hr0 : (0 : ℤ) ≤ ((m % 2 ^ i : ℕ) : ℤ) := by positivity
  have hrlt : ((m % 2 ^ i : ℕ) : ℤ) < 2 ^ i := by
    have := Nat.mod_lt m (y := 2 ^ i) (by positivity)
    exact_mod_cast this
  have key := (Int.ediv_emod_unique (a := Int.negSucc m)
    (b := (2 : ℤ) ^ i) (q := Int.negSucc (m / 2 ^ i))
    (r := 2 ^ i - 1 - ((m % 2 ^ i : ℕ) : ℤ)) hpos).mpr ?_
  · exact key.1
  · refine ⟨?_, by omega, by omega⟩
    rw [Int.negSucc_eq, Int.negSucc_eq]
    linear_combination hm

/-- Parity of `negSucc`. -/
theorem negSucc_emod_two (n : ℕ) :
    (Int.negSucc n) % 2 = if n % 2 = 0 then 1 else 0 := by
  rw [Int.negSucc_eq]
  rcases Nat.mod_two_eq_zero_or_one n with h | h <;> simp [h] <;> omega

/-- The bit of an integer is a digit of its binary expansion, through
Euclidean division. -/
theorem int_testBit_to_div_mod (a : ℤ) (i : ℕ) :
    a.testBit i = decide (a / 2 ^ i % 2 = 1) := by
  cases a with
  | ofNat m =>
    show m.testBit i = _
    rw [Nat.testBit_to_div_mod, decide_eq_decide]
    constructor
    · intro h
      have : ((m / 2 ^ i % 2 : ℕ) : ℤ) = 1 := by exact_mod_cast h
      rw [← this]
      push_cast [Int.natCast_div, Int.natCast_mod]
      norm_num
    · intro h
      have h2 : ((m / 2 ^ i % 2 : ℕ) : ℤ) = 1 := by
        rw [← h]
        push_cast [Int.natCast_div, Int.natCast_mod]
        norm_num
      exact_mod_cast h2
  | negSucc m =>
    show (!(m.testBit i)) = decide ((Int.negSucc m) / 2 ^ i % 2 = 1)
    rw [negSucc_ediv_two_pow, negSucc_emod_two, Nat.testBit_to_div_mod]
    rcases Nat.mod_two_eq_zero_or_one (m / 2 ^ i) with h | h <;> simp [h]

/-- Iterated Euclidean division by powers of two composes. -/
theorem int_ediv_two_pow_ediv (a : ℤ) (m n : ℕ) :
    a / 2 ^ m / 2 ^ n = a / 2 ^ (m + n) := by
  have hb : (0 : ℤ) < 2 ^ m := by positivity
  have hc : (0 : ℤ) < 2 ^ n := by positivity
  have hq : a = a % 2 ^ (m + n) + (a / 2 ^ (m + n)) * (2 ^ m * 2 ^ n) := by
    have hdef := Int.emod_def a (2 ^ (m + n))
    have hp : (2 : ℤ) ^ (m + n) = 2 ^ m * 2 ^ n := pow_add 2 m n
    linear_combination -hdef + (a / 2 ^ (m + n)) * hp
  have hr0 : (0 : ℤ) ≤ a % 2 ^ (m + n) := Int.emod_nonneg a (by positivity)
  have hrlt : a % 2 ^ (m + n) < 2 ^ m * 2 ^ n := by
    rw [← pow_add]
    exact Int.emod_lt_of_pos a (by positivity)
  have step1 : a / 2 ^ m = a % 2 ^ (m + n) / 2 ^ m + a / 2 ^ (m + n) * 2 ^ n := by
    conv_lhs => rw [hq]
    have : a % 2 ^ (m + n) + a / 2 ^ (m + n) * (2 ^ m * 2 ^ n)
        = a % 2 ^ (m + n) + (a / 2 ^ (m + n) * 2 ^ n) * 2 ^ m := by ring
    rw [this, Int.add_mul_ediv_right _ _ (ne_of_gt hb)]
  have hsmall : a % 2 ^ (m + n) / 2 ^ m < 2 ^ n := by
    refine Int.ediv_lt_of_lt_mul hb ?_
    calc a % 2 ^ (m + n) < 2 ^ m * 2 ^ n := hrlt
    _ = 2 ^ n * 2 ^ m := by ring
  have hsmall0 : 0 ≤ a % 2 ^ (m + n) / 2 ^ m := Int.ediv_nonneg hr0 (le_of_lt hb)
  rw [step1, Int.add_mul_ediv_right _ _ (ne_of_gt hc),
    Int.ediv_eq_zero_of_lt hsmall0 hsmall, zero_add]

/-- Bits of a quotient by a power of two are shifted bits. -/
theorem int_testBit_ediv_two_pow (a : ℤ) (k i : ℕ) :
    (a / 2 ^ k).testBit i = a.testBit (k + i) := by
  rw [int_testBit_to_div_mod, int_testBit_to_div_mod, int_ediv_two_pow_ediv]

/-- Bits of a power-of-two multiple are shifted bits, with zeros below. -/
theorem int_testBit_mul_two_pow (a : ℤ) (n i : ℕ) :
    (a * 2 ^ n).testBit i = (decide (n ≤ i) && a.testBit (i - n)) := by
  rcases le_or_lt n i with h | h
  · rw [int_testBit_to_div_mod, int_testBit_to_div_mod]
    have hdiv : a * 2 ^ n / 2 ^ i = a / 2 ^ (i - n) := by
      have hi : (2 : ℤ) ^ i = 2 ^ n * 2 ^ (i - n) := by
        rw [← pow_add]
        congr 1
        omega
      rw [hi, mul_comm a ((2 : ℤ) ^ n), Int.mul_ediv_mul_of_pos _ _ (by positivity)]
    rw [hdiv]
    simp [h]
  · have hdiv : a * 2 ^ n / 2 ^ i = a * 2 ^ (n - i) := by
      have hn : a * (2 : ℤ) ^ n = a * 2 ^ (n - i) * 2 ^ i := by
        rw [mul_assoc, ← pow_add]
        congr 2
        omega
      rw [hn, Int.mul_ediv_cancel _ (by positivity)]
    have heven : a * 2 ^ (n - i) % 2 = 0 := by
      have hsplit : a * (2 : ℤ) ^ (n - i) = 2 * (a * 2 ^ (n - i - 1)) := by
        have : (2 : ℤ) ^ (n - i) = 2 * 2 ^ (n - i - 1) := by
          rw [← pow_succ']
          congr 1
          omega
        rw [this]
        ring
      rw [hsplit, Int.mul_emod_right]
    rw [int_testBit_to_div_mod, hdiv, heven]
    simp
    omega

/-- Bits of `2 ^ k - 1` over the integers. -/
theorem int_testBit_two_pow_sub_one (k i : ℕ) :
    ((2 : ℤ) ^ k - 1).testBit i = decide (i < k) := by
  have hcast : ((2 : ℤ) ^ k - 1) = ((2 ^ k - 1 : ℕ) : ℤ) := by
    push_cast [Nat.one_le_two_pow]
    ring
  rw [hcast, int_testBit_natCast, Nat.testBit_two_pow_sub_one]

/-- Bits of a Euclidean remainder by a power of two: the low bits of the
argument. -/
theorem int_testBit_emod_two_pow (a : ℤ) (k t : ℕ) :
    (a % 2 ^ k).testBit t = (decide (t < k) && a.testBit t) := by
  rcases lt_or_le t k with h | h
  · rw [int_testBit_to_div_mod, int_testBit_to_div_mod]
    have h1 : a % 2 ^ k = a + (-(a / 2 ^ k * 2 ^ (k - t))) * 2 ^ t := by
      have hk : (2 : ℤ) ^ k = 2 ^ (k - t) * 2 ^ t := by
        rw [← pow_add]
        congr 1
        omega
      rw [Int.emod_def, hk]
      ring
    have h2 : a % 2 ^ k / 2 ^ t = a / 2 ^ t + -(a / 2 ^ k * 2 ^ (k - t)) := by
      rw [h1, Int.add_mul_ediv_right _ _ (by positivity)]
    have h3 : a % 2 ^ k / 2 ^ t % 2 = a / 2 ^ t % 2 := by
      rw [h2]
      have hsplit : -(a / 2 ^ k * 2 ^ (k - t)) = -(a / 2 ^ k * 2 ^ (k - t - 1)) * 2 := by
        have : (2 : ℤ) ^ (k - t) = 2 ^ (k - t - 1) * 2 := by
          rw [← pow_succ]
          congr 1
          omega
        rw [this]
        ring
      rw [hsplit, Int.add_mul_emod_self]
    rw [h3]
    simp [h]
  · have h0 : a % 2 ^ k / 2 ^ t = 0 := by
      refine Int.ediv_eq_zero_of_lt (Int.emod_nonneg a (by positivity)) ?_
      calc a % 2 ^ k < 2 ^ k := Int.emod_lt_of_pos a (by positivity)
      _ ≤ 2 ^ t := by
        apply pow_le_pow_right (by norm_num) h
    rw [int_testBit_to_div_mod, h0]
    simp
    omega

/-- Python's `x & (2**k - 1)` is `x % 2**k`, also for negative `x`. -/
theorem int_land_two_pow_sub_one (a : ℤ) (k : ℕ) :
    Int.land a (2 ^ k - 1) = a % 2 ^ k := by
  refine int_eq_of_testBit_eq fun t => ?_
  rw [Int.testBit_land, int_testBit_two_pow_sub_one, int_testBit_emod_two_pow,
    Bool.and_comm]

/-- High bits of a small non-negative integer are clear. -/
theorem int_testBit_eq_false_of_lt {x : ℤ} {n : ℕ} (h0 : 0 ≤ x)
    (hlt : x < 2 ^ n) {i : ℕ} (hi : n ≤ i) : x.testBit i = false := by
  obtain ⟨m, rfl⟩ := Int.eq_ofNat_of_zero_le h0
  show m.testBit i = false
  refine Nat.testBit_lt_two_pow ?_
  have hm : m < 2 ^ n := by exact_mod_cast hlt
  calc m < 2 ^ n := hm
  _ ≤ 2 ^ i := Nat.pow_le_pow_right (by norm_num) hi

/-- High bits of a small negative integer are set. -/
theorem int_testBit_eq_true_of_neg {x : ℤ} {n : ℕ} (hge : -(2 ^ n) ≤ x)
    (hneg : x < 0) {i : ℕ} (hi : n ≤ i) : x.testBit i = true := by
  cases x with
  | ofNat m =>
    exfalso
    have : (0 : ℤ) ≤ Int.ofNat m := Int.ofNat_nonneg m
    omega
  | negSucc m =>
    show (!(m.testBit i)) = true
    have hm : (m : ℤ) < 2 ^ n := by
      rw [Int.negSucc_eq] at hge
      omega
    have hmn : m < 2 ^ n := by exact_mod_cast hm
    have : m.testBit i = false := by
      refine Nat.testBit_lt_two_pow ?_
      calc m < 2 ^ n := hmn
      _ ≤ 2 ^ i := Nat.pow_le_pow_right (by norm_num) hi
    rw [this]
    rfl

/-- Bits of the slice-assignment mask `(2^D - 1) * 2^J`: positions
`J .. J+D-1`. -/
theorem slice_mask_testBit (J D t : ℕ) :
    (((2 : ℤ) ^ D - 1) * 2 ^ J).testBit t = (decide (J ≤ t) && decide (t - J < D)) := by
  rw [int_testBit_mul_two_pow, int_testBit_two_pow_sub_one]

/-- Bits of the value written by `intbv.__setitem__` on a slice. -/
theorem slice_write_testBit (a x : ℤ) (J D t : ℕ) :
    (Int.lor (Int.land a (Int.lnot ((2 ^ D - 1) * 2 ^ J))) (x * 2 ^ J)).testBit t
      = ((a.testBit t && !(decide (J ≤ t) && decide (t - J < D)))
          || (decide (J ≤ t) && x.testBit (t - J))) := by
  rw [Int.testBit_lor, Int.testBit_land, Int.testBit_lnot, slice_mask_testBit,
    int_testBit_mul_two_pow]

/-- A slice assignment leaves the bits below the slice unchanged. -/
theorem slice_write_emod_low (a x : ℤ) (J D : ℕ) :
    Int.lor (Int.land a (Int.lnot ((2 ^ D - 1) * 2 ^ J))) (x * 2 ^ J) % 2 ^ J
      = a % 2 ^ J := by
  rw [← int_land_two_pow_sub_one, ← int_land_two_pow_sub_one]
  refine int_eq_of_testBit_eq fun t => ?_
  rw [Int.testBit_land, Int.testBit_land, slice_write_testBit]
  rcases lt_or_le t J with h | h
  · simp [h, Nat.not_le_of_lt h, int_testBit_two_pow_sub_one]
  · simp [h, Nat.not_lt_of_le h, int_testBit_two_pow_sub_one]

/-- A slice assignment makes the slice read back as the low bits of the
written value. -/
theorem slice_write_emod_mid (a x : ℤ) (J D : ℕ) :
    Int.lor (Int.land a (Int.lnot ((2 ^ D - 1) * 2 ^ J))) (x * 2 ^ J) / 2 ^ J % 2 ^ D
      = x % 2 ^ D := by
  rw [← int_land_two_pow_sub_one, ← int_land_two_pow_sub_one]
  refine int_eq_of_testBit_eq fun t => ?_
  rw [Int.testBit_land, Int.testBit_land, int_testBit_ediv_two_pow,
    slice_write_testBit]
  rcases lt_or_le t D with h | h
  · simp [h, Nat.le_add_right J t, Nat.add_sub_cancel_left,
      int_testBit_two_pow_sub_one]
  · simp [h, Nat.not_lt_of_le h, int_testBit_two_pow_sub_one]

/-- For a non-negative written value a slice assignment leaves the bits
above the slice unchanged. -/
theorem slice_write_ediv_high_nonneg (a x : ℤ) (J D : ℕ)
    (hx0 : 0 ≤ x) (hxlt : x < 2 ^ D) :
    Int.lor (Int.land a (Int.lnot ((2 ^ D - 1) * 2 ^ J))) (x * 2 ^ J) / 2 ^ (J + D)
      = a / 2 ^ (J + D) := by
  refine int_eq_of_testBit_eq fun t => ?_
  rw [int_testBit_ediv_two_pow, int_testBit_ediv_two_pow, slice_write_testBit]
  have h1 : J ≤ J + D + t := by omega
  have h2 : ¬(J + D + t - J < D) := by omega
  have h3 : x.testBit (J + D + t - J) = false :=
    int_testBit_eq_false_of_lt hx0 hxlt (by omega)
  simp [h1, h2, h3]

/-- For a negative written value a slice assignment sets every bit above
the slice: the quotient past the slice is `-1`. -/
theorem slice_write_ediv_high_neg (a x : ℤ) (J D : ℕ)
    (hx0 : -(2 ^ D) ≤ x) (hxneg : x < 0) :
    Int.lor (Int.land a (Int.lnot ((2 ^ D - 1) * 2 ^ J))) (x * 2 ^ J) / 2 ^ (J + D)
      = -1 := by
  refine int_eq_of_testBit_eq fun t => ?_
  rw [int_testBit_ediv_two_pow, slice_write_testBit, int_testBit_neg_one]
  have h1 : J ≤ J + D + t := by omega
  have h3 : x.testBit (J + D + t - J) = true :=
    int_testBit_eq_true_of_neg hx0 hxneg (by omega)
  simp [h1, h3]

/-- C4 (amended): for indices `i > j >= 0`, the slice assignment
`v[i:j] = x` raises `ValueError` exactly when `x >= 2^(i-j)` or
`x < -2^(i-j)` (so the boundary `x = -2^(i-j)` is accepted, unlike the
claimed `|x| < 2^(i-j)` precondition); an accepted write stores the low
`i-j` bits of `x` in positions `j..i-1`, keeps the bits below `j`, and
keeps the bits at or above `i` when `x >= 0` (a negative `x` sign-fills
them); afterwards `_handleBounds` re-checks the instance bounds. -/
theorem intbv_setslice_spec (v : intbv) (i j x : Int)
    (hj : 0 ≤ j) (hij : j < i) :
    ((2 ^ (i - j).toNat ≤ x ∨ x < -(2 ^ (i - j).toNat)) →
      applyMutation v (.setSlice i j x) = (v, some PyErr.valueError)) ∧
    (-(2 ^ (i - j).toNat) ≤ x → x < 2 ^ (i - j).toNat →
      (applyMutation v (.setSlice i j x)).1.min? = v.min? ∧
      (applyMutation v (.setSlice i j x)).1.max? = v.max? ∧
      (applyMutation v (.setSlice i j x)).1.nrbits = v.nrbits ∧
      (applyMutation v (.setSlice i j x)).1.val % 2 ^ j.toNat
        = v.val % 2 ^ j.toNat ∧
      (applyMutation v (.setSlice i j x)).1.val / 2 ^ j.toNat % 2 ^ (i - j).toNat
        = x % 2 ^ (i - j).toNat ∧
      (0 ≤ x →
        (applyMutation v (.setSlice i j x)).1.val / 2 ^ i.toNat
          = v.val / 2 ^ i.toNat) ∧
      (x < 0 →
        (applyMutation v (.setSlice i j x)).1.val / 2 ^ i.toNat = -1) ∧
      (applyMutation v (.setSlice i j x)).2
        = handleBounds (applyMutation v (.setSlice i j x)).1) := by
  have hjneg : ¬(j < 0) := not_lt.mpr hj
  have hijle : ¬(i ≤ j) := not_le.mpr hij
  have hID : i.toNat = j.toNat + (i - j).toNat := by omega
  constructor
  · intro hcond
    simp [applyMutation, hjneg, hijle, hcond]
  · intro hge hlt
    have hcond : ¬((2 : ℤ) ^ (i - j).toNat ≤ x ∨ x < -(2 ^ (i - j).toNat)) := by
      omega
    have hw : applyMutation v (.setSlice i j x)
        = setVal v (Int.lor
            (Int.land v.val (Int.lnot ((2 ^ (i - j).toNat - 1) * 2 ^ j.toNat)))
            (x * 2 ^ j.toNat)) := by
      simp [applyMutation, hjneg, hijle, hcond]
    rw [hw]
    refine ⟨rfl, rfl, rfl, ?_, ?_, ?_, ?_, rfl⟩
    · exact slice_write_emod_low v.val x j.toNat (i - j).toNat
    · exact slice_write_emod_mid v.val x j.toNat (i - j).toNat
    · intro hx0
      have hh := slice_write_ediv_high_nonneg v.val x j.toNat (i - j).toNat hx0 hlt
      rw [hID]
      exact hh
    · intro hxneg
      have hh := slice_write_ediv_high_neg v.val x j.toNat (i - j).toNat hge hxneg
      rw [hID]
      exact hh

/-- Witness for C4 (amended): on `intbv(53, min=0, max=64)`,
`v[4:1] = 20` raises (20 >= 2^3) and `v[4:1] = 5` writes the slice:
low bit kept, slice reads back `5`, bits above bit 3 kept. -/
theorem intbv_setslice_spec_witness :
    applyMutation ⟨53, some 0, some 64, 6⟩ (.setSlice 4 1 20)
      = (⟨53, some 0, some 64, 6⟩, some PyErr.valueError) ∧
    (applyMutation ⟨53, some 0, some 64, 6⟩ (.setSlice 4 1 5)).1.val % 2
      = 53 % 2 ∧
    (applyMutation ⟨53, some 0, some 64, 6⟩ (.setSlice 4 1 5)).1.val / 2 % 8
      = 5 % 8 ∧
    (applyMutation ⟨53, some 0, some 64, 6⟩ (.setSlice 4 1 5)).1.val / 16
      = 53 / 16 := by
  have h1 := (intbv_setslice_spec ⟨53, some 0, some 64, 6⟩ 4 1 20
    (by decide) (by decide)).1 (by decide)
  have h2 := (intbv_setslice_spec ⟨53, some 0, some 64, 6⟩ 4 1 5
    (by decide) (by decide)).2 (by decide) (by decide)
  refine ⟨h1, ?_, ?_, ?_⟩
  · simpa using h2.2.2.2.1
  · simpa using h2.2.2.2.2.1
  · simpa using h2.2.2.2.2.2.1 (by decide)

/-- Bitwise and with zero. -/
theorem int_zero_land (a : ℤ) : Int.land 0 a = 0 := by
  refine int_eq_of_testBit_eq fun t => ?_
  rw [Int.testBit_land]
  have h0 : (0 : ℤ).testBit t = false := by
    show (Int.ofNat 0).testBit t = false
    simp [Int.testBit]
  simp [h0]

theorem int_zero_lor (a : ℤ) : Int.lor 0 a = a := by
  refine int_eq_of_testBit_eq fun t => ?_
  rw [Int.testBit_lor]
  have h0 : (0 : ℤ).testBit t = false := by
    show (Int.ofNat 0).testBit t = false
    simp [Int.testBit]
  simp [h0]

/-- Counterexample for C4: the slice assignment `intbv(0)[2:0] = -4` has
`|x| = 2^(i-j) = 4`, which the claim says must raise a bounds-violation
error; the code accepts it (only `x < -2^(i-j)` raises) and stores `-4`. -/
theorem intbv_setslice_neg_lim_cex :
    applyMutation ⟨0, none, none, 0⟩ (.setSlice 2 0 (-4))
      = (⟨-4, none, none, 0⟩, none) ∧
    ¬(|(-4 : ℤ)| < 2 ^ ((2 : ℤ) - 0).toNat) := by
  constructor
  · simp only [applyMutation]
    norm_num [setVal, handleBounds, Int.toNat_ofNat, int_zero_land, int_zero_lor]
    decide
  · decide

/-- Constructing an `intbv` with both bounds keeps the given fields and
raises exactly on an out-of-range value. -/
theorem intbvNew_bounded (x mn mx : Int) :
    ((mn ≤ x ∧ x < mx) →
      ∃ nb : Nat, intbvNew x (some mn) (some mx) = .ok ⟨x, some mn, some mx, nb⟩) ∧
    (¬(mn ≤ x ∧ x < mx) →
      intbvNew x (some mn) (some mx) = .error PyErr.valueError) := by
  constructor
  · intro h
    refine ⟨if 0 ≤ mn then binLen (mx - 1)
      else if mx ≤ 1 then binLen mn
      else Nat.max (binLen (mx - 1) + 1) (binLen mn), ?_⟩
    simp only [intbvNew]
    rw [(handleBounds_none_iff ⟨x, some mn, some mx, _⟩ mn mx rfl rfl).mpr h]
  · intro h
    simp only [intbvNew]
    rw [handleBounds_some ⟨x, some mn, some mx, _⟩ mn mx rfl rfl h]

/-- C5 (amended): `signed()` reinterprets the low `nrbits` bits as two's
complement exactly when the instance was declared with `min >= 0` and
`nrbits > 0`: the result is congruent to the value modulo `2**nrbits`
and lies in `[-2**(nrbits-1), 2**(nrbits-1))`.  In every other case the
result value equals the value unchanged -- except that the result is
built with bounds `-2**(nrbits-1) .. 2**(nrbits-1)` whenever a width is
declared, so a widthed instance without a declared `min` whose value
falls outside that signed range makes `signed()` raise `ValueError`
instead of returning it.  The three parts cover every case: declared
`min >= 0` with a width, declared `min` that is `None` or negative, and
declared `min >= 0` without a width (e.g. `intbv(5, min=0)`), where the
value is returned unchanged in an unconstrained result. -/
theorem intbv_signed_spec (v : intbv) :
    (∀ mn : Int, v.min? = some mn → 0 ≤ mn → mn ≤ v.val → 0 < v.nrbits →
      ∃ w : intbv, intbv.signed v = .ok w ∧
        w.val % 2 ^ v.nrbits = v.val % 2 ^ v.nrbits ∧
        -(2 ^ (v.nrbits - 1)) ≤ w.val ∧ w.val < 2 ^ (v.nrbits - 1) ∧
        w.min? = some (-(2 ^ (v.nrbits - 1))) ∧
        w.max? = some (2 ^ (v.nrbits - 1))) ∧
    ((v.min? = none ∨ ∃ mn, v.min? = some mn ∧ mn < 0) →
      (v.nrbits = 0 → intbv.signed v = .ok ⟨v.val, none, none, 0⟩) ∧
      (0 < v.nrbits →
        ((-(2 ^ (v.nrbits - 1)) ≤ v.val ∧ v.val < 2 ^ (v.nrbits - 1)) →
          ∃ w : intbv, intbv.signed v = .ok w ∧ w.val = v.val) ∧
        (¬(-(2 ^ (v.nrbits - 1)) ≤ v.val ∧ v.val < 2 ^ (v.nrbits - 1)) →
          intbv.signed v = .error PyErr.valueError))) ∧
    (∀ mn : Int, v.min? = some mn → 0 ≤ mn → v.nrbits = 0 →
      intbv.signed v = .ok ⟨v.val, none, none, 0⟩) := by
  refine ⟨?_, ?_, ?_⟩
  · intro mn hmn h0 hle hnr
    have hcond : 0 ≤ mn ∧ 0 < v.nrbits := ⟨h0, hnr⟩
    have hsigned : intbv.signed v
        = intbvNew
            (if 0 < Int.land (v.val / 2 ^ (v.nrbits - 1)) 1
              then Int.land v.val (2 ^ (v.nrbits - 1) - 1) - 2 ^ (v.nrbits - 1)
              else Int.land v.val (2 ^ (v.nrbits - 1) - 1))
            (some (-(2 ^ (v.nrbits - 1)))) (some (2 ^ (v.nrbits - 1))) := by
      simp only [intbv.signed, hmn]
      rw [if_pos hcond, if_pos hnr]
    have hland : Int.land v.val (2 ^ (v.nrbits - 1) - 1)
        = v.val % 2 ^ (v.nrbits - 1) := int_land_two_pow_sub_one _ _
    have hsign : Int.land (v.val / 2 ^ (v.nrbits - 1)) 1
        = v.val / 2 ^ (v.nrbits - 1) % 2 := by
      have h := int_land_two_pow_sub_one (v.val / 2 ^ (v.nrbits - 1)) 1
      norm_num at h
      exact h
    have hval0 : 0 ≤ v.val := le_trans h0 hle
    have hr0 : 0 ≤ v.val % 2 ^ (v.nrbits - 1) :=
      Int.emod_nonneg _ (by positivity)
    have hrlt : v.val % 2 ^ (v.nrbits - 1) < 2 ^ (v.nrbits - 1) :=
      Int.emod_lt_of_pos _ (by positivity)
    have hvq : v.val = 2 ^ (v.nrbits - 1) * (v.val / 2 ^ (v.nrbits - 1))
        + v.val % 2 ^ (v.nrbits - 1) := (Int.ediv_add_emod _ _).symm
    have hnb : v.nrbits = (v.nrbits - 1) + 1 := by omega
    have hd : v.val / 2 ^ (v.nrbits - 1) % 2 = 0
        ∨ v.val / 2 ^ (v.nrbits - 1) % 2 = 1 := by omega
    rcases hd with hd | hd
    · have hsf : ¬(0 < Int.land (v.val / 2 ^ (v.nrbits - 1)) 1) := by
        rw [hsign, hd]
        exact lt_irrefl 0
      rw [hsigned, if_neg hsf, hland]
      obtain ⟨nb, hok⟩ := (intbvNew_bounded (v.val % 2 ^ (v.nrbits - 1))
        (-(2 ^ (v.nrbits - 1))) (2 ^ (v.nrbits - 1))).1 ⟨by omega, by omega⟩
      refine ⟨_, hok, ?_,
        (show -(2 ^ (v.nrbits - 1)) ≤ v.val % 2 ^ (v.nrbits - 1) by omega),
        (show v.val % 2 ^ (v.nrbits - 1) < 2 ^ (v.nrbits - 1) by omega), rfl, rfl⟩
      show v.val % 2 ^ (v.nrbits - 1) % 2 ^ v.nrbits = v.val % 2 ^ v.nrbits
      have hq0 : v.val / 2 ^ (v.nrbits - 1)
          = 2 * (v.val / 2 ^ (v.nrbits - 1) / 2) := by omega
      rw [hnb, pow_succ, Int.emod_eq_emod_iff_emod_sub_eq_zero]
      simp only [Nat.add_sub_cancel]
      apply Int.emod_eq_zero_of_dvd
      refine ⟨-(v.val / 2 ^ (v.nrbits - 1) / 2), ?_⟩
      linear_combination -hvq - 2 ^ (v.nrbits - 1) * hq0
    · have hst : 0 < Int.land (v.val / 2 ^ (v.nrbits - 1)) 1 := by
        rw [hsign, hd]
        norm_num
      rw [hsigned, if_pos hst, hland]
      obtain ⟨nb, hok⟩ := (intbvNew_bounded
        (v.val % 2 ^ (v.nrbits - 1) - 2 ^ (v.nrbits - 1))
        (-(2 ^ (v.nrbits - 1))) (2 ^ (v.nrbits - 1))).1 ⟨by omega, by omega⟩
      refine ⟨_, hok, ?_,
        (show -(2 ^ (v.nrbits - 1)) ≤ v.val % 2 ^ (v.nrbits - 1) - 2 ^ (v.nrbits - 1)
          by omega),
        (show v.val % 2 ^ (v.nrbits - 1) - 2 ^ (v.nrbits - 1) < 2 ^ (v.nrbits - 1)
          by omega), rfl, rfl⟩
      show (v.val % 2 ^ (v.nrbits - 1) - 2 ^ (v.nrbits - 1)) % 2 ^ v.nrbits
        = v.val % 2 ^ v.nrbits
      have hq1 : v.val / 2 ^ (v.nrbits - 1)
          = 2 * (v.val / 2 ^ (v.nrbits - 1) / 2) + 1 := by omega
      rw [hnb, pow_succ, Int.emod_eq_emod_iff_emod_sub_eq_zero]
      simp only [Nat.add_sub_cancel]
      apply Int.emod_eq_zero_of_dvd
      refine ⟨-(v.val / 2 ^ (v.nrbits - 1) / 2) - 1, ?_⟩
      linear_combination -hvq - 2 ^ (v.nrbits - 1) * hq1
  · intro hother
    have hret : intbv.signed v
        = (if 0 < v.nrbits
            then intbvNew v.val (some (-(2 ^ (v.nrbits - 1))))
              (some (2 ^ (v.nrbits - 1)))
            else intbvNew v.val none none) := by
      rcases hother with hn | ⟨mn, hmn, hneg⟩
      · simp only [intbv.signed, hn]
      · have hcond : ¬(0 ≤ mn ∧ 0 < v.nrbits) := by
          intro hc
          omega
        simp only [intbv.signed, hmn]
        rw [if_neg hcond]
    constructor
    · intro h0
      rw [hret, if_neg (by omega : ¬(0 < v.nrbits))]
      exact intbvNew_unbounded v.val
    · intro hnr
      constructor
      · intro hin
        rw [hret, if_pos hnr]
        obtain ⟨nb, hok⟩ := (intbvNew_bounded v.val (-(2 ^ (v.nrbits - 1)))
          (2 ^ (v.nrbits - 1))).1 hin
        exact ⟨_, hok, rfl⟩
      · intro hout
        rw [hret, if_pos hnr]
        exact (intbvNew_bounded v.val (-(2 ^ (v.nrbits - 1)))
          (2 ^ (v.nrbits - 1))).2 hout
  · intro mn hmn h0 h0n
    have hcond : ¬(0 ≤ mn ∧ 0 < v.nrbits) := by omega
    have hnr : ¬(0 < v.nrbits) := by omega
    simp only [intbv.signed, hmn]
    rw [if_neg hcond, if_neg hnr]
    exact intbvNew_unbounded v.val

/-- Witness for C5 (amended): `intbv(5, min=0, max=8)` has width 3 and
`signed()` returns the two's complement reinterpretation, congruent to
`5` modulo `8` and within `[-4, 4)`; `intbv(5, min=0)` has no width and
`signed()` returns the value unchanged, unconstrained. -/
theorem intbv_signed_spec_witness :
    (∃ w : intbv, intbv.signed ⟨5, some 0, some 8, 3⟩ = .ok w ∧
      w.val % 2 ^ 3 = 5 % 2 ^ 3 ∧
      -(2 ^ 2) ≤ w.val ∧ w.val < 2 ^ 2 ∧
      w.min? = some (-(2 ^ 2)) ∧ w.max? = some (2 ^ 2)) ∧
    intbv.signed ⟨5, some 0, none, 0⟩ = .ok ⟨5, none, none, 0⟩ :=
  ⟨(intbv_signed_spec ⟨5, some 0, some 8, 3⟩).1 0 rfl (by norm_num)
      (by norm_num) (by norm_num),
    (intbv_signed_spec ⟨5, some 0, none, 0⟩).2.2 0 rfl (by norm_num) rfl⟩

/-- Counterexample for C5: `intbv('111')` is declared with no bounds and
width 3 (value 7); the claim says `signed()` returns the value unchanged
in every case where `min >= 0 and nrbits > 0` does not hold, but the
code builds the result with bounds `-4 .. 4` and value `7`, so it raises
`ValueError` instead of returning anything. -/
theorem intbv_signed_raises_cex :
    (intbvOfBits [true, true, true]).min? = none ∧
    (intbvOfBits [true, true, true]).nrbits = 3 ∧
    (intbvOfBits [true, true, true]).val = 7 ∧
    intbv.signed (intbvOfBits [true, true, true]) = .error PyErr.valueError := by
  refine ⟨rfl, rfl, by decide, rfl⟩
